import Mathlib

/-!
Verification of the batch PDF-conversion orchestrator (`pdf_processor.js`).

The development shallowly embeds the program: file and folder names are
`List Char`, the filesystem under the output root is an association list from
folder names to folder contents, the external converter is an oracle
(`Env.conv`) describing how the spawned child process terminates and what it
leaves in the output folder, and `rmdirSync` failures are a second oracle
(`Env.rmFails`).  Exceptions of the JavaScript source are modelled with
`Except`: `spawnCommand`'s promise either resolves to a `Bool` or rejects.
-/

namespace MarkerMultiple

/-- File and folder names, file contents: plain character lists. -/
abbrev Name := List Char

/-- The characters of the extension `.pdf`. -/
def pdfExtL : Name := ['.', 'p', 'd', 'f']

/-- The characters of the extension `.md`. -/
def mdExtL : Name := ['.', 'm', 'd']

/-- Lower-case every character (JavaScript `toLowerCase` on ASCII names). -/
def lowerL (cs : Name) : Name := cs.map Char.toLower

/-- Node's `path.extname` on a bare file name (no directory separators): the
suffix starting at the last dot, unless that dot is the first character or
there is no dot, in which case the extension is empty. -/
def extname (cs : Name) : Name :=
  match cs.reverse.dropWhile (fun c => c != '.') with
  | [] => []
  | [_] => []
  | _ :: _ :: _ => '.' :: (cs.reverse.takeWhile (fun c => c != '.')).reverse

/-- The batch filter of `processAllPdfs`:
`path.extname(file).toLowerCase() === '.pdf'`. -/
def pdfFilter (cs : Name) : Bool := lowerL (extname cs) == pdfExtL

/-- The Markdown filter of `processMarkdownFiles`:
`path.extname(file).toLowerCase() === '.md'`. -/
def mdFilter (cs : Name) : Bool := lowerL (extname cs) == mdExtL

/-- Node's `path.basename(p, '.pdf')` on a bare file name: the suffix `.pdf`
is removed when it matches case-sensitively and the name is not the bare
extension itself.  Both `processPdf` and `processAllPdfs` derive the document
key this way. -/
def documentKey (cs : Name) : Name :=
  if pdfExtL.isSuffixOf cs ∧ cs ≠ pdfExtL then cs.take (cs.length - 4) else cs

/-! ### The Output Path Rewriter (`replaceImagePaths`)

The source applies `content.replace(/(_page[^)]+\.jpeg)/g, ...)`: scanning
left to right, at each position the longest (greedy) match of
`_page`, then one or more characters other than `)`, then `.jpeg`
is replaced by `http://localhost:3000/<folderName>/<match>`. -/

/-- The literal `_page` the pattern starts with. -/
def pagePat : Name := ['_', 'p', 'a', 'g', 'e']

/-- The literal `.jpeg` the pattern ends with. -/
def jpegPat : Name := ['.', 'j', 'p', 'e', 'g']

/-- The dollar sign that starts a JavaScript replacement pattern. -/
def dollarChar : Char := '$'

/-- The backquote code unit (code 96), as in the replacement pattern that
inserts the text preceding the match. -/
def backquoteChar : Char := Char.ofNat 96

/-- The apostrophe code unit (code 39), as in the replacement pattern that
inserts the text following the match. -/
def quoteChar : Char := Char.ofNat 39

/-- Numeric value of a decimal-digit code unit. -/
def digitVal (c : Char) : Nat := c.toNat - 48

/-- The constant text `http://localhost:3000/` hard-coded at the front of
the source's replacement template. -/
def urlHead : Name :=
  ('h' :: 't' :: 't' :: 'p' :: ':' :: '/' :: '/' :: 'l' :: 'o' :: 'c' :: 'a'
    :: 'l' :: 'h' :: 'o' :: 's' :: 't' :: ':' :: '3' :: '0' :: '0' :: '0'
    :: '/' :: [])

/-- The URL head `http://localhost:3000/<key>/` that precedes the matched
text in the rewritten output whenever the key holds no `$` character. -/
def urlPre (key : Name) : Name := urlHead ++ key ++ ['/']

/-- The source's replacement argument: the template literal
`http://localhost:3000/<folderName>/$1`, with the folder name interpolated
into the pattern string before `String.replace` processes its `$`-patterns. -/
def urlTemplate (key : Name) : Name := urlHead ++ key ++ ['/', dollarChar, '1']

/-- Search downward from `n` for the largest body length `k ≤ n`, `k ≥ 1`,
such that `.jpeg` follows the first `k` characters of `cs`. -/
def bodyLenFrom : Nat → Name → Option Nat
  | 0, _ => none
  | k + 1, cs =>
    if jpegPat.isPrefixOf (cs.drop (k + 1)) then some (k + 1)
    else bodyLenFrom k cs

/-- Greedy body search for `[^)]+\.jpeg` at the start of `cs` (the characters
after a matched `_page`): the longest `k ≥ 1` such that the first `k`
characters contain no `)` and are immediately followed by `.jpeg`. -/
def findBodyLen (cs : Name) : Option Nat :=
  bodyLenFrom (cs.takeWhile (fun c => c != ')')).length cs

/-- One step of ECMAScript GetSubstitution over the replacement template,
for a replace with one always-participating capture group equal to the whole
match: `$$` yields `$`; `$&` the match; a `$` before a backquote the text
preceding the match; a `$` before an apostrophe the text following it;
`$1` and `$01` the capture; a two-digit reference beyond the capture count
falls back to its first digit; any remaining `$`-digit reference and any
other `$` are literal. -/
def substStep (matched before after : Name) (go : Name → Name) (cs : Name) :
    Name :=
  match cs with
  | [] => []
  | c :: rest =>
    if c = dollarChar then
      match rest with
      | [] => [dollarChar]
      | c2 :: t =>
        if c2 = dollarChar then dollarChar :: go t
        else if c2 = '&' then matched ++ go t
        else if c2 = backquoteChar then before ++ go t
        else if c2 = quoteChar then after ++ go t
        else if c2.isDigit then
          match t with
          | c3 :: t3 =>
            if c3.isDigit then
              if digitVal c2 * 10 + digitVal c3 = 1 then matched ++ go t3
              else if digitVal c2 = 1 then matched ++ go t
              else dollarChar :: c2 :: go t
            else if digitVal c2 = 1 then matched ++ go t
            else dollarChar :: c2 :: go t
          | [] =>
            if digitVal c2 = 1 then matched ++ go []
            else dollarChar :: c2 :: go []
        else dollarChar :: go (c2 :: t)
    else c :: go rest

/-- Fuelled GetSubstitution scan over the template (each step consumes at
least one template character, so fuel = template length suffices). -/
def getSubstitution (matched before after : Name) : Nat → Name → Name
  | 0, cs => cs
  | fuel + 1, cs =>
    substStep matched before after (getSubstitution matched before after fuel) cs

/-- ECMAScript GetSubstitution of a replacement template for one match,
where `before` and `after` are the original text surrounding the match. -/
def runSubstitution (matched before after tmpl : Name) : Name :=
  getSubstitution matched before after tmpl.length tmpl

/-- One scan step of the global replace at the current position: emit the
JS-expanded replacement for the greedy match and jump past it, or copy one
character; `pre` is the original text already scanned, used by the
backquote replacement pattern. -/
def replaceStepFull (key : Name) (go : Name → Name → Name) (pre cs : Name) :
    Name :=
  if pagePat.isPrefixOf cs then
    match findBodyLen (cs.drop 5) with
    | some k =>
        runSubstitution (cs.take (10 + k)) pre (cs.drop (10 + k)) (urlTemplate key)
          ++ go (pre ++ cs.take (10 + k)) (cs.drop (10 + k))
    | none =>
      match cs with
      | [] => []
      | c :: rest => c :: go (pre ++ [c]) rest
  else
    match cs with
    | [] => []
    | c :: rest => c :: go (pre ++ [c]) rest

/-- The left-to-right global-replace scan, fuelled (the fuel only needs to
dominate the number of scan steps, which is at most `cs.length`). -/
def replaceGoFull (key : Name) : Nat → Name → Name → Name
  | 0, _, cs => cs
  | fuel + 1, pre, cs => replaceStepFull key (replaceGoFull key fuel) pre cs

/-- The global replacement of `replaceImagePaths` on a character list. -/
def replaceListFull (key cs : Name) : Name := replaceGoFull key cs.length [] cs

/-- The content transformation of `replaceImagePaths`, on `String`s. -/
def replaceImagePathsContent (folderName content : String) : String :=
  String.mk (replaceListFull folderName.toList content.toList)

/-! ### Filesystem model and the conversion oracle -/

/-- A folder: its files as (name, content) pairs. -/
abbrev Folder := List (Name × Name)

/-- The output root: an association list from folder names to contents. -/
abbrev FsState := List (Name × Folder)

/-- `fs.existsSync` for a folder under the output root. -/
def existsF (st : FsState) (k : Name) : Bool := st.any (fun e => e.1 == k)

/-- Observe a folder's content. -/
def lookupF (st : FsState) (k : Name) : Option Folder := st.lookup k

/-- The external converter creating folder `k` with files `fls`. -/
def addFolder (st : FsState) (k : Name) (fls : Folder) : FsState := (k, fls) :: st

/-- `fs.rmdirSync(path, { recursive: true })`: drop the folder named `k`. -/
def removeFolder (st : FsState) (k : Name) : FsState :=
  st.filter (fun e => e.1 != k)

/-- `replaceImagePaths` applied over the files of one directory entry, when
the entry is the target folder. -/
def rewriteEntry (k : Name) (e : Name × Folder) : Name × Folder :=
  if e.1 == k then
    (e.1, e.2.map (fun f => if mdFilter f.1 then (f.1, replaceListFull k f.2) else f))
  else e

/-- `processMarkdownFiles`: inside folder `k` (if present), rewrite the
content of every file whose lower-cased extension is `.md`. -/
def rewriteFolder (k : Name) (st : FsState) : FsState :=
  st.map (rewriteEntry k)

/-- How the spawned child process terminates: a `close` event carrying the
exit code, or an `error` event (the process could not be launched). -/
inductive ProcEvent where
  | close (code : Int)
  | launchError (msg : Name)
deriving DecidableEq

/-- `spawnCommand`: the promise resolves `true` on exit code `0`, resolves
`false` on any other exit code, and rejects (`Except.error`) when the process
cannot be launched at all. -/
def spawnResult : ProcEvent → Except Name Bool
  | .close code => if code = 0 then .ok true else .ok false
  | .launchError m => .error m

/-- The converter oracle for one document: how the child terminates, and the
content of the output folder it leaves behind (`none` when it creates no
folder); where that folder lands is fixed by the per-document model driving
the oracle (`processPdf` places it at the orchestrator's key, `processPdfC`
at the contracted base-name stem). -/
structure ConvInstr where
  event : ProcEvent
  out : Option Folder
deriving DecidableEq

/-- The run environment: converter behaviour per input file name, and whether
`rmdirSync` throws for a given folder. -/
structure Env where
  conv : Name → ConvInstr
  rmFails : Name → Bool

/-- Does the conversion attempt for `name` end in a Failed outcome (nonzero
exit or launch failure)? -/
def failsDoc (env : Env) (name : Name) : Bool :=
  match spawnResult (env.conv name).event with
  | .ok true => false
  | _ => true

/-- The converter's side effect on the output root. -/
def sideEffect (st : FsState) (k : Name) (o : Option Folder) : FsState :=
  match o with
  | some fls => addFolder st k fls
  | none => st

/-- The failure cleanup of `processPdf`: if the folder exists it is deleted;
a deletion failure (`Env.rmFails`) leaves it in place and is only logged. -/
def cleanup (env : Env) (k : Name) (st : FsState) : FsState :=
  if existsF st k then (if env.rmFails k then st else removeFolder st k) else st

/-- Result of `processPdf`: the resolved boolean, the filesystem afterwards,
and whether a child process was spawned. -/
structure DocRun where
  result : Bool
  st : FsState
  spawned : Bool
deriving DecidableEq

/-- `processPdf`: skip (returning `true`) when the output folder already
exists; otherwise spawn the converter, rewrite the Markdown on success, clean
up and return `false` on resolved failure or on a caught exception. -/
def processPdf (env : Env) (st : FsState) (name : Name) : DocRun :=
  let key := documentKey name
  if existsF st key then ⟨true, st, false⟩
  else
    let instr := env.conv name
    let st1 := sideEffect st key instr.out
    match spawnResult instr.event with
    | .ok true => ⟨true, rewriteFolder key st1, true⟩
    | .ok false => ⟨false, cleanup env key st1, true⟩
    | .error _ => ⟨false, cleanup env key st1, true⟩

/-- The run statistics accumulated by `processAllPdfs`. -/
structure Counts where
  succ : Nat
  skip : Nat
  fail : Nat
deriving DecidableEq

/-- Batch-loop accumulator: filesystem, tallies, and the log of documents for
which a child process was spawned. -/
structure BatchAcc where
  st : FsState
  counts : Counts
  spawnedDocs : List Name
deriving DecidableEq

/-- One iteration of the batch loop: the orchestrator's own existence
pre-check counts a skip without calling `processPdf`; otherwise the result of
`processPdf` is tallied as success or failure. -/
def batchStep (env : Env) (acc : BatchAcc) (name : Name) : BatchAcc :=
  let key := documentKey name
  if existsF acc.st key then
    { acc with counts := { acc.counts with skip := acc.counts.skip + 1 } }
  else
    let r := processPdf env acc.st name
    { st := r.st
      counts :=
        if r.result then { acc.counts with succ := acc.counts.succ + 1 }
        else { acc.counts with fail := acc.counts.fail + 1 }
      spawnedDocs :=
        if r.spawned then acc.spawnedDocs ++ [name] else acc.spawnedDocs }

/-- The sequential batch loop of `processAllPdfs` over the filtered list. -/
def runBatch (env : Env) (st : FsState) (pdfs : List Name) : BatchAcc :=
  pdfs.foldl (batchStep env) ⟨st, ⟨0, 0, 0⟩, []⟩

/-- The filesystem effect of one batch iteration. -/
def stepState (env : Env) (st : FsState) (name : Name) : FsState :=
  if existsF st (documentKey name) then st else (processPdf env st name).st

/-- The filesystem after a whole batch run. -/
def runState (env : Env) (st : FsState) (pdfs : List Name) : FsState :=
  pdfs.foldl (stepState env) st

/-- Observable outcome of one `processAllPdfs` call (with the CLI layer's
usage error added for `mainExit`). -/
inductive RunOutcome where
  | usage
  | missingInput
  | noPdfs (st : FsState)
  | completed (acc : BatchAcc)
deriving DecidableEq

/-- `processAllPdfs`: aborts (plain `return`) when the input directory does
not exist (`listing = none`), returns early when no `.pdf` candidate is
found, and otherwise runs the batch loop; its whole body is wrapped in
`try`/`catch`, so it never rejects. -/
def processAllPdfs (env : Env) (listing : Option (List Name)) (st : FsState) :
    RunOutcome :=
  match listing with
  | none => .missingInput
  | some files =>
    let pdfs := files.filter pdfFilter
    if pdfs = [] then .noPdfs st else .completed (runBatch env st pdfs)

/-- The CLI entry: fewer than two arguments prints usage and calls
`process.exit(1)`; otherwise `processAllPdfs` runs to completion (its body
never throws nor rejects, and it contains no `process.exit` call), so the
Node process terminates normally with status `0`. -/
def mainExit (argv : List Name) (env : Env) (listing : Option (List Name))
    (st : FsState) : RunOutcome × Nat :=
  if argv.length < 2 then (.usage, 1)
  else (processAllPdfs env listing st, 0)

/-! ### Derived notions and concrete instances used in the statements -/

/-- Candidates whose output folder already exists in `st`. -/
def skippedOf (st : FsState) (pdfs : List Name) : Nat :=
  (pdfs.filter (fun p => existsF st (documentKey p))).length

/-- Candidates without a pre-existing folder whose conversion fails. -/
def failedOf (env : Env) (st : FsState) (pdfs : List Name) : Nat :=
  (pdfs.filter (fun p => !existsF st (documentKey p) && failsDoc env p)).length

/-- Candidates without a pre-existing folder whose conversion succeeds. -/
def succOf (env : Env) (st : FsState) (pdfs : List Name) : Nat :=
  (pdfs.filter (fun p => !existsF st (documentKey p) && !failsDoc env p)).length

/-- A document whose conversion attempt leaves any folder-free state exactly
as it found it (its converter fails without leaving output that survives
cleanup, or succeeds without creating the contracted folder). -/
def inert (env : Env) (p : Name) : Prop :=
  ∀ s : FsState, existsF s (documentKey p) = false → stepState env s p = s

/-- A converter oracle that always exits 0 and creates an empty output
folder; `rmdirSync` never fails. -/
def envOk : Env := ⟨fun _ => ⟨.close 0, some []⟩, fun _ => false⟩

/-- A converter oracle that always exits with code 1 after leaving a partial
output folder behind; `rmdirSync` never fails. -/
def envBad : Env := ⟨fun _ => ⟨.close 1, some []⟩, fun _ => false⟩

/-- A converter oracle whose binary cannot be launched at all. -/
def envErr : Env := ⟨fun _ => ⟨.launchError ['e'], none⟩, fun _ => false⟩

/-- The folder name the external converter is contracted to create under the
output root (spec interface contract): the PDF's base name without its
extension.  It differs from the orchestrator's `documentKey` exactly when
the accepted extension is not the lower-case `.pdf` (e.g. `a.PDF` has
key `a.PDF` but contracted folder `a`). -/
def converterStem (cs : Name) : Name := cs.take (cs.length - (extname cs).length)

/-- The single-document conversion against a contract-honouring converter:
the orchestrator logic of `processPdf` unchanged, but the converter's side
effect lands in the folder named `converterStem name`, where the contract
puts it, rather than at the orchestrator's own key. -/
def processPdfC (env : Env) (st : FsState) (name : Name) : DocRun :=
  let key := documentKey name
  if existsF st key then ⟨true, st, false⟩
  else
    let instr := env.conv name
    let st1 := sideEffect st (converterStem name) instr.out
    match spawnResult instr.event with
    | .ok true => ⟨true, rewriteFolder key st1, true⟩
    | .ok false => ⟨false, cleanup env key st1, true⟩
    | .error _ => ⟨false, cleanup env key st1, true⟩

/-- The batch iteration of `batchStep`, driving `processPdfC`. -/
def batchStepC (env : Env) (acc : BatchAcc) (name : Name) : BatchAcc :=
  let key := documentKey name
  if existsF acc.st key then
    { acc with counts := { acc.counts with skip := acc.counts.skip + 1 } }
  else
    let r := processPdfC env acc.st name
    { st := r.st
      counts :=
        if r.result then { acc.counts with succ := acc.counts.succ + 1 }
        else { acc.counts with fail := acc.counts.fail + 1 }
      spawnedDocs :=
        if r.spawned then acc.spawnedDocs ++ [name] else acc.spawnedDocs }

/-- The batch loop against the contract-honouring converter. -/
def runBatchC (env : Env) (st : FsState) (pdfs : List Name) : BatchAcc :=
  pdfs.foldl (batchStepC env) ⟨st, ⟨0, 0, 0⟩, []⟩

/-- A page-image pattern occurrence, following the regex
`_page[^)]+\.jpeg` of the source: begins with `_page`, continues with at
least one character none of which is `)`, and ends with `.jpeg`. -/
def IsMatch (m : Name) : Prop :=
  ∃ v, m = pagePat ++ v ++ jpegPat ∧ v ≠ [] ∧ ')' ∉ v

/-- Specification relation for the global rewrite, following the spec's
wording of JavaScript `String.replace` with a global regex: scanning left to
right, at each position the longest occurrence starting there is replaced by
`http://localhost:3000/<key>/<match>` and scanning resumes after it; every
other character is copied unchanged. -/
inductive Rewrites (key : Name) : Name → Name → Prop where
  | nil : Rewrites key [] []
  | keep {c : Char} {cs out : Name} :
      (∀ m rest, c :: cs = m ++ rest → ¬ IsMatch m) →
      Rewrites key cs out →
      Rewrites key (c :: cs) (c :: out)
  | repl {m rest out : Name} :
      IsMatch m →
      (∀ m2 rest2, m ++ rest = m2 ++ rest2 → IsMatch m2 → m2.length ≤ m.length) →
      Rewrites key rest out →
      Rewrites key (m ++ rest) (urlPre key ++ m ++ out)

/-! ### Basic facts about the filesystem operations -/

theorem existsF_cons (k : Name) (f : Folder) (st : FsState) (j : Name) :
    existsF ((k, f) :: st) j = ((k == j) || existsF st j) := by
  simp [existsF]

theorem existsF_addFolder_self (st : FsState) (k : Name) (f : Folder) :
    existsF (addFolder st k f) k = true := by
  simp [addFolder, existsF]

theorem existsF_addFolder_ne (st : FsState) (k : Name) (f : Folder) (j : Name)
    (h : j ≠ k) : existsF (addFolder st k f) j = existsF st j := by
  simp [addFolder, existsF_cons, beq_eq_false_iff_ne.mpr (Ne.symm h)]

theorem existsF_removeFolder_ne (st : FsState) (k j : Name) (h : j ≠ k) :
    existsF (removeFolder st k) j = existsF st j := by
  unfold existsF removeFolder
  rw [List.any_filter]
  congr 1
  funext e
  by_cases hej : e.1 == j
  · have : e.1 = j := by simpa using hej
    have : (e.1 != k) = true := by simp [this]; exact h
    simp [hej, this]
  · simp at hej
    simp [beq_eq_false_iff_ne.mpr hej]

theorem rewriteEntry_fst (k : Name) (e : Name × Folder) :
    (rewriteEntry k e).1 = e.1 := by
  unfold rewriteEntry
  split <;> rfl

theorem rewriteEntry_of_ne (k : Name) (e : Name × Folder)
    (h : (e.1 == k) = false) : rewriteEntry k e = e := by
  unfold rewriteEntry
  simp [h]

theorem existsF_rewriteFolder (k : Name) (st : FsState) (j : Name) :
    existsF (rewriteFolder k st) j = existsF st j := by
  unfold existsF rewriteFolder
  rw [List.any_map]
  congr 1
  funext e
  simp [Function.comp, rewriteEntry_fst]

theorem rewriteFolder_of_not (k : Name) (st : FsState)
    (h : existsF st k = false) : rewriteFolder k st = st := by
  induction st with
  | nil => rfl
  | cons e st ih =>
    obtain ⟨ek, ef⟩ := e
    simp only [existsF, List.any_cons, Bool.or_eq_false_iff] at h
    have h1 : (ek == k) = false := h.1
    have h2 : existsF st k = false := h.2
    unfold rewriteFolder at ih ⊢
    simp only [List.map_cons]
    rw [ih h2, rewriteEntry_of_ne k (ek, ef) h1]

theorem removeFolder_addFolder_of_not (st : FsState) (k : Name) (f : Folder)
    (h : existsF st k = false) : removeFolder (addFolder st k f) k = st := by
  unfold existsF at h
  unfold addFolder removeFolder
  rw [List.filter_cons]
  have hself : (((k, f) : Name × Folder).1 != k) = false := by simp
  rw [hself]
  simp only [Bool.false_eq_true, if_false]
  rw [List.filter_eq_self]
  intro e he
  have := List.any_eq_false.mp h e he
  simpa using this

theorem lookupF_addFolder_ne (st : FsState) (k : Name) (f : Folder) (j : Name)
    (h : j ≠ k) : lookupF (addFolder st k f) j = lookupF st j := by
  simp [addFolder, lookupF, List.lookup_cons, beq_eq_false_iff_ne.mpr h]

theorem lookupF_removeFolder_ne (st : FsState) (k j : Name) (h : j ≠ k) :
    lookupF (removeFolder st k) j = lookupF st j := by
  induction st with
  | nil => rfl
  | cons e st ih =>
    obtain ⟨ek, ef⟩ := e
    by_cases hek : ek = k
    · have h1 : (ek != k) = false := by simp [hek]
      have h2 : (j == ek) = false := beq_eq_false_iff_ne.mpr (hek ▸ h)
      simp [removeFolder, List.filter_cons, h1, lookupF, List.lookup_cons, h2] at ih ⊢
      exact ih
    · have h1 : (ek != k) = true := by simp [hek]
      simp [removeFolder, List.filter_cons, h1, lookupF, List.lookup_cons] at ih ⊢
      by_cases hje : j == ek
      · simp [hje]
      · simp at hje
        simp [beq_eq_false_iff_ne.mpr hje]
        exact ih

theorem lookupF_rewriteFolder_ne (k : Name) (st : FsState) (j : Name)
    (h : j ≠ k) : lookupF (rewriteFolder k st) j = lookupF st j := by
  induction st with
  | nil => rfl
  | cons e st ih =>
    obtain ⟨ek, ef⟩ := e
    unfold rewriteFolder at ih ⊢
    simp only [List.map_cons]
    by_cases hje : (j == ek) = true
    · have hje' : j = ek := by simpa using hje
      have hek : (ek == k) = false := beq_eq_false_iff_ne.mpr (hje' ▸ h)
      rw [rewriteEntry_of_ne k (ek, ef) hek]
      unfold lookupF
      rw [List.lookup_cons, List.lookup_cons]
      simp only [hje]
    · have hje' : (j == ek) = false := by simpa using hje
      have hfst : rewriteEntry k (ek, ef)
          = ((rewriteEntry k (ek, ef)).1, (rewriteEntry k (ek, ef)).2) := rfl
      rw [hfst]
      unfold lookupF at ih ⊢
      rw [List.lookup_cons, List.lookup_cons]
      rw [rewriteEntry_fst]
      simp only [hje']
      exact ih

theorem existsF_cleanup_ne (env : Env) (k : Name) (st : FsState) (j : Name)
    (h : j ≠ k) : existsF (cleanup env k st) j = existsF st j := by
  unfold cleanup
  by_cases h1 : existsF st k
  · by_cases h2 : env.rmFails k
    · simp [h1, h2]
    · simp [h1, h2, existsF_removeFolder_ne st k j h]
  · simp [h1]

theorem lookupF_cleanup_ne (env : Env) (k : Name) (st : FsState) (j : Name)
    (h : j ≠ k) : lookupF (cleanup env k st) j = lookupF st j := by
  unfold cleanup
  by_cases h1 : existsF st k
  · by_cases h2 : env.rmFails k
    · simp [h1, h2]
    · simp [h1, h2, lookupF_removeFolder_ne st k j h]
  · simp [h1]

theorem existsF_sideEffect_ne (st : FsState) (k : Name) (o : Option Folder)
    (j : Name) (h : j ≠ k) : existsF (sideEffect st k o) j = existsF st j := by
  cases o with
  | none => rfl
  | some fls => exact existsF_addFolder_ne st k fls j h

theorem lookupF_sideEffect_ne (st : FsState) (k : Name) (o : Option Folder)
    (j : Name) (h : j ≠ k) : lookupF (sideEffect st k o) j = lookupF st j := by
  cases o with
  | none => rfl
  | some fls => exact lookupF_addFolder_ne st k fls j h

/-! ### Facts about `processPdf` and the batch loop -/

theorem processPdf_of_existsF (env : Env) (st : FsState) (name : Name)
    (h : existsF st (documentKey name) = true) :
    processPdf env st name = ⟨true, st, false⟩ := by
  unfold processPdf
  simp [h]

theorem processPdf_result_of_not (env : Env) (st : FsState) (name : Name)
    (h : existsF st (documentKey name) = false) :
    (processPdf env st name).result = !failsDoc env name
      ∧ (processPdf env st name).spawned = true := by
  unfold processPdf failsDoc
  simp only [h, Bool.false_eq_true, if_false]
  cases hs : spawnResult (env.conv name).event with
  | ok b => cases b <;> simp [hs]
  | error m => simp [hs]

theorem existsF_processPdf_ne (env : Env) (st : FsState) (name : Name)
    (j : Name) (h : j ≠ documentKey name) :
    existsF (processPdf env st name).st j = existsF st j := by
  unfold processPdf
  by_cases hex : existsF st (documentKey name) = true
  · simp [hex]
  · simp only [Bool.not_eq_true] at hex
    simp only [hex, Bool.false_eq_true, if_false]
    cases hs : spawnResult (env.conv name).event with
    | ok b =>
      cases b with
      | true =>
        simp only [hs]
        rw [existsF_rewriteFolder, existsF_sideEffect_ne st _ _ j h]
      | false =>
        simp only [hs]
        rw [existsF_cleanup_ne env _ _ j h, existsF_sideEffect_ne st _ _ j h]
    | error m =>
      simp only [hs]
      rw [existsF_cleanup_ne env _ _ j h, existsF_sideEffect_ne st _ _ j h]

theorem lookupF_processPdf_ne (env : Env) (st : FsState) (name : Name)
    (j : Name) (h : j ≠ documentKey name) :
    lookupF (processPdf env st name).st j = lookupF st j := by
  unfold processPdf
  by_cases hex : existsF st (documentKey name) = true
  · simp [hex]
  · simp only [Bool.not_eq_true] at hex
    simp only [hex, Bool.false_eq_true, if_false]
    cases hs : spawnResult (env.conv name).event with
    | ok b =>
      cases b with
      | true =>
        simp only [hs]
        rw [lookupF_rewriteFolder_ne _ _ j h, lookupF_sideEffect_ne st _ _ j h]
      | false =>
        simp only [hs]
        rw [lookupF_cleanup_ne env _ _ j h, lookupF_sideEffect_ne st _ _ j h]
    | error m =>
      simp only [hs]
      rw [lookupF_cleanup_ne env _ _ j h, lookupF_sideEffect_ne st _ _ j h]

theorem batchStep_st (env : Env) (acc : BatchAcc) (name : Name) :
    (batchStep env acc name).st = stepState env acc.st name := by
  unfold batchStep stepState
  by_cases h : existsF acc.st (documentKey name) = true
  · simp [h]
  · simp only [Bool.not_eq_true] at h
    simp [h]

theorem foldl_batchStep_st (env : Env) (acc : BatchAcc) (pdfs : List Name) :
    (pdfs.foldl (batchStep env) acc).st = pdfs.foldl (stepState env) acc.st := by
  induction pdfs generalizing acc with
  | nil => rfl
  | cons p rest ih =>
    simp only [List.foldl_cons]
    rw [ih, batchStep_st]

theorem runBatch_st (env : Env) (st : FsState) (pdfs : List Name) :
    (runBatch env st pdfs).st = runState env st pdfs := by
  unfold runBatch runState
  exact foldl_batchStep_st env _ pdfs

theorem stepState_of_existsF (env : Env) (st : FsState) (name : Name)
    (h : existsF st (documentKey name) = true) :
    stepState env st name = st := by
  unfold stepState
  simp [h]

theorem existsF_stepState_mono (env : Env) (st : FsState) (name : Name)
    (j : Name) (h : existsF st j = true) :
    existsF (stepState env st name) j = true := by
  unfold stepState
  by_cases hex : existsF st (documentKey name) = true
  · simp [hex, h]
  · simp only [Bool.not_eq_true] at hex
    simp only [hex, Bool.false_eq_true, if_false]
    have hj : j ≠ documentKey name := by
      intro hh
      rw [hh] at h
      rw [h] at hex
      cases hex
    rw [existsF_processPdf_ne env st name j hj]
    exact h

theorem existsF_runState_mono (env : Env) (st : FsState) (pdfs : List Name)
    (j : Name) (h : existsF st j = true) :
    existsF (runState env st pdfs) j = true := by
  induction pdfs generalizing st with
  | nil => exact h
  | cons p rest ih =>
    unfold runState at ih ⊢
    simp only [List.foldl_cons]
    exact ih _ (existsF_stepState_mono env st p j h)

/-! ### Idempotency machinery -/

theorem stepState_dichotomy (env : Env) (st : FsState) (p : Name) :
    existsF (stepState env st p) (documentKey p) = true ∨ inert env p := by
  by_cases hex : existsF st (documentKey p) = true
  · left
    rw [stepState_of_existsF env st p hex]
    exact hex
  · simp only [Bool.not_eq_true] at hex
    cases hs : spawnResult (env.conv p).event with
    | ok b =>
      cases b with
      | true =>
        cases ho : (env.conv p).out with
        | some fls =>
          left
          unfold stepState processPdf
          simp only [hex, Bool.false_eq_true, if_false, hs, ho, sideEffect]
          rw [existsF_rewriteFolder]
          exact existsF_addFolder_self st _ fls
        | none =>
          right
          intro s hsx
          unfold stepState processPdf
          simp only [hsx, Bool.false_eq_true, if_false, hs, ho, sideEffect]
          exact rewriteFolder_of_not _ s hsx
      | false =>
        cases ho : (env.conv p).out with
        | some fls =>
          by_cases hrm : env.rmFails (documentKey p) = true
          · left
            unfold stepState processPdf
            simp only [hex, Bool.false_eq_true, if_false, hs, ho, sideEffect]
            unfold cleanup
            simp only [existsF_addFolder_self, if_true, hrm]
          · simp only [Bool.not_eq_true] at hrm
            right
            intro s hsx
            unfold stepState processPdf
            simp only [hsx, Bool.false_eq_true, if_false, hs, ho, sideEffect]
            unfold cleanup
            simp only [existsF_addFolder_self, if_true, hrm, Bool.false_eq_true,
              if_false]
            exact removeFolder_addFolder_of_not s _ fls hsx
        | none =>
          right
          intro s hsx
          unfold stepState processPdf
          simp only [hsx, Bool.false_eq_true, if_false, hs, ho, sideEffect]
          unfold cleanup
          simp only [hsx, Bool.false_eq_true, if_false]
    | error m =>
      cases ho : (env.conv p).out with
      | some fls =>
        by_cases hrm : env.rmFails (documentKey p) = true
        · left
          unfold stepState processPdf
          simp only [hex, Bool.false_eq_true, if_false, hs, ho, sideEffect]
          unfold cleanup
          simp only [existsF_addFolder_self, if_true, hrm]
        · simp only [Bool.not_eq_true] at hrm
          right
          intro s hsx
          unfold stepState processPdf
          simp only [hsx, Bool.false_eq_true, if_false, hs, ho, sideEffect]
          unfold cleanup
          simp only [existsF_addFolder_self, if_true, hrm, Bool.false_eq_true,
            if_false]
          exact removeFolder_addFolder_of_not s _ fls hsx
      | none =>
        right
        intro s hsx
        unfold stepState processPdf
        simp only [hsx, Bool.false_eq_true, if_false, hs, ho, sideEffect]
        unfold cleanup
        simp only [hsx, Bool.false_eq_true, if_false]

theorem runState_idem (env : Env) (pdfs : List Name) :
    ∀ st : FsState,
      runState env (runState env st pdfs) pdfs = runState env st pdfs := by
  induction pdfs with
  | nil => intro st; rfl
  | cons p rest ih =>
    intro st
    have hcons : ∀ s : FsState,
        runState env s (p :: rest) = runState env (stepState env s p) rest := by
      intro s; rfl
    by_cases hd : existsF (stepState env st p) (documentKey p) = true
    · set st1 := runState env (stepState env st p) rest with hst1
      have hx1 : existsF st1 (documentKey p) = true :=
        existsF_runState_mono env _ rest _ hd
      rw [hcons st, ← hst1, hcons st1, stepState_of_existsF env st1 p hx1]
      rw [hst1]
      exact ih (stepState env st p)
    · have hinert : inert env p := by
        rcases stepState_dichotomy env st p with h | h
        · exact absurd h hd
        · exact h
      have hex : existsF st (documentKey p) = false := by
        by_cases hx : existsF st (documentKey p) = true
        · exfalso
          apply hd
          rw [stepState_of_existsF env st p hx]
          exact hx
        · simpa using hx
      have hstep : stepState env st p = st := hinert st hex
      set st1 := runState env st rest with hst1
      rw [hcons st, hstep, ← hst1, hcons st1]
      have hstep1 : stepState env st1 p = st1 := by
        by_cases hx1 : existsF st1 (documentKey p) = true
        · exact stepState_of_existsF env st1 p hx1
        · exact hinert st1 (by simpa using hx1)
      rw [hstep1, hst1]
      exact ih st

/-! ### Counting lemmas -/

theorem counts_partition (env : Env) (st : FsState) (pdfs : List Name) :
    skippedOf st pdfs + failedOf env st pdfs + succOf env st pdfs
      = pdfs.length := by
  induction pdfs with
  | nil => rfl
  | cons p rest ih =>
    unfold skippedOf failedOf succOf at ih ⊢
    rw [List.filter_cons, List.filter_cons, List.filter_cons]
    by_cases hex : existsF st (documentKey p) = true
    · simp only [hex]
      simp
      omega
    · simp only [Bool.not_eq_true] at hex
      by_cases hf : failsDoc env p = true
      · simp only [hex, hf]
        simp
        omega
      · simp only [Bool.not_eq_true] at hf
        simp only [hex, hf]
        simp
        omega

theorem foldl_batchStep_counts_sum (env : Env) (pdfs : List Name) :
    ∀ acc : BatchAcc,
      (pdfs.foldl (batchStep env) acc).counts.succ
        + (pdfs.foldl (batchStep env) acc).counts.skip
        + (pdfs.foldl (batchStep env) acc).counts.fail
      = acc.counts.succ + acc.counts.skip + acc.counts.fail + pdfs.length := by
  induction pdfs with
  | nil => intro acc; simp
  | cons p rest ih =>
    intro acc
    simp only [List.foldl_cons]
    rw [ih]
    unfold batchStep
    by_cases hex : existsF acc.st (documentKey p) = true
    · simp only [hex, if_true, List.length_cons]
      omega
    · simp only [Bool.not_eq_true] at hex
      simp only [hex, Bool.false_eq_true, if_false, List.length_cons]
      by_cases hr : (processPdf env acc.st p).result = true
      · simp only [hr, if_true]
        omega
      · simp only [Bool.not_eq_true] at hr
        simp only [hr, Bool.false_eq_true, if_false]
        omega

theorem foldl_batchStep_fail_mono (env : Env) (pdfs : List Name) :
    ∀ acc : BatchAcc,
      acc.counts.fail ≤ (pdfs.foldl (batchStep env) acc).counts.fail := by
  induction pdfs with
  | nil => intro acc; exact Nat.le_refl _
  | cons p rest ih =>
    intro acc
    simp only [List.foldl_cons]
    refine Nat.le_trans ?_ (ih (batchStep env acc p))
    unfold batchStep
    by_cases hex : existsF acc.st (documentKey p) = true
    · simp [hex]
    · simp only [Bool.not_eq_true] at hex
      simp only [hex, Bool.false_eq_true, if_false]
      by_cases hr : (processPdf env acc.st p).result = true
      · simp [hr]
      · simp only [Bool.not_eq_true] at hr
        simp only [hr, Bool.false_eq_true, if_false]
        exact Nat.le_succ _

theorem foldl_batchStep_all_skip (env : Env) (pdfs : List Name) :
    ∀ acc : BatchAcc, (∀ p ∈ pdfs, existsF acc.st (documentKey p) = true) →
      pdfs.foldl (batchStep env) acc
        = ⟨acc.st,
           { acc.counts with skip := acc.counts.skip + pdfs.length },
           acc.spawnedDocs⟩ := by
  induction pdfs with
  | nil => intro acc _; simp
  | cons p rest ih =>
    intro acc hall
    simp only [List.foldl_cons]
    have hp : existsF acc.st (documentKey p) = true := hall p (by simp)
    have hstep : batchStep env acc p
        = ⟨acc.st,
           { acc.counts with skip := acc.counts.skip + 1 },
           acc.spawnedDocs⟩ := by
      unfold batchStep
      simp only [hp, if_true]
    rw [hstep]
    rw [ih ⟨acc.st, { acc.counts with skip := acc.counts.skip + 1 }, acc.spawnedDocs⟩
        (fun q hq => hall q (by simp [hq]))]
    simp only [List.length_cons]
    congr 2
    omega

/-- If a run records no failure, every candidate's output folder exists at
the end of the run — provided the converter honours its contract of creating
the output folder whenever it exits successfully. -/
theorem fail_zero_all_exist (env : Env) (pdfs : List Name) :
    ∀ acc : BatchAcc,
      (∀ p ∈ pdfs,
        spawnResult (env.conv p).event = .ok true → (env.conv p).out ≠ none) →
      (pdfs.foldl (batchStep env) acc).counts.fail = acc.counts.fail →
      ∀ p ∈ pdfs,
        existsF (pdfs.foldl (stepState env) acc.st) (documentKey p) = true := by
  induction pdfs with
  | nil => intro acc _ _ p hp; cases hp
  | cons p rest ih =>
    intro acc hconv hfail q hq
    simp only [List.foldl_cons] at hfail ⊢
    have hstep_st := batchStep_st env acc p
    by_cases hex : existsF acc.st (documentKey p) = true
    · have hskip : batchStep env acc p
          = { acc with counts := { acc.counts with skip := acc.counts.skip + 1 } } := by
        unfold batchStep
        simp only [hex, if_true]
      rcases List.mem_cons.mp hq with heq | hq'
      · subst heq
        have hx : existsF (stepState env acc.st q) (documentKey q) = true := by
          rw [stepState_of_existsF env acc.st q hex]
          exact hex
        have := existsF_runState_mono env (stepState env acc.st q) rest _ hx
        unfold runState at this
        exact this
      · have hfail' : (rest.foldl (batchStep env) (batchStep env acc p)).counts.fail
            = (batchStep env acc p).counts.fail := by
          rw [hskip] at hfail ⊢
          exact hfail
        have := ih (batchStep env acc p)
          (fun r hr hok => hconv r (by simp [hr]) hok) hfail' q hq'
        rw [hstep_st] at this
        exact this
    · simp only [Bool.not_eq_true] at hex
      by_cases hfd : failsDoc env p = true
      · exfalso
        have hres : (processPdf env acc.st p).result = false := by
          have := (processPdf_result_of_not env acc.st p hex).1
          rw [this, hfd]
          rfl
        have hinc : (batchStep env acc p).counts.fail = acc.counts.fail + 1 := by
          unfold batchStep
          simp only [hex, Bool.false_eq_true, if_false, hres]
        have hmono := foldl_batchStep_fail_mono env rest (batchStep env acc p)
        rw [hinc] at hmono
        omega
      · simp only [Bool.not_eq_true] at hfd
        have hok : spawnResult (env.conv p).event = .ok true := by
          unfold failsDoc at hfd
          cases hs : spawnResult (env.conv p).event with
          | ok b =>
            cases b with
            | true => rfl
            | false => rw [hs] at hfd; cases hfd
          | error m => rw [hs] at hfd; cases hfd
        have hres : (processPdf env acc.st p).result = true := by
          have := (processPdf_result_of_not env acc.st p hex).1
          rw [this, hfd]
          rfl
        have hsome : (env.conv p).out ≠ none := hconv p (by simp) hok
        have hexafter : existsF (stepState env acc.st p) (documentKey p) = true := by
          unfold stepState processPdf
          simp only [hex, Bool.false_eq_true, if_false, hok]
          cases ho : (env.conv p).out with
          | none => exact absurd ho hsome
          | some fls =>
            simp only [sideEffect]
            rw [existsF_rewriteFolder]
            exact existsF_addFolder_self acc.st _ fls
        have hstep : (batchStep env acc p).counts.fail = acc.counts.fail := by
          unfold batchStep
          simp only [hex, Bool.false_eq_true, if_false, hres, if_true]
        rcases List.mem_cons.mp hq with heq | hq'
        · subst heq
          have := existsF_runState_mono env (stepState env acc.st q) rest _ hexafter
          unfold runState at this
          exact this
        · have hfail' : (rest.foldl (batchStep env) (batchStep env acc p)).counts.fail
              = (batchStep env acc p).counts.fail := by
            rw [hstep]
            exact hfail
          have := ih (batchStep env acc p)
            (fun r hr hok2 => hconv r (by simp [hr]) hok2) hfail' q hq'
          rw [hstep_st] at this
          exact this

theorem key_ne_of_nodup {p : Name} {rest : List Name}
    (hnd : documentKey p ∉ rest.map documentKey) :
    ∀ q ∈ rest, documentKey q ≠ documentKey p := by
  intro q hq heq
  exact hnd (heq ▸ List.mem_map_of_mem documentKey hq)

theorem skippedOf_congr (st st' : FsState) (rest : List Name)
    (h : ∀ q ∈ rest, existsF st' (documentKey q) = existsF st (documentKey q)) :
    skippedOf st' rest = skippedOf st rest := by
  unfold skippedOf
  rw [List.filter_congr (fun q hq => by rw [h q hq])]

theorem failedOf_congr (env : Env) (st st' : FsState) (rest : List Name)
    (h : ∀ q ∈ rest, existsF st' (documentKey q) = existsF st (documentKey q)) :
    failedOf env st' rest = failedOf env st rest := by
  unfold failedOf
  rw [List.filter_congr (fun q hq => by rw [h q hq])]

theorem succOf_congr (env : Env) (st st' : FsState) (rest : List Name)
    (h : ∀ q ∈ rest, existsF st' (documentKey q) = existsF st (documentKey q)) :
    succOf env st' rest = succOf env st rest := by
  unfold succOf
  rw [List.filter_congr (fun q hq => by rw [h q hq])]

/-- With pairwise-distinct document keys the tallies of a batch run are
exactly the skipped/failed/succeeded partitions of the candidate list,
evaluated against the initial filesystem. -/
theorem foldl_batchStep_counts_nodup (env : Env) (pdfs : List Name) :
    ∀ (st : FsState) (c : Counts) (l : List Name),
      (pdfs.map documentKey).Nodup →
      (pdfs.foldl (batchStep env) ⟨st, c, l⟩).counts
        = ⟨c.succ + succOf env st pdfs, c.skip + skippedOf st pdfs,
           c.fail + failedOf env st pdfs⟩ := by
  induction pdfs with
  | nil =>
    intro st c l _
    simp [skippedOf, failedOf, succOf]
  | cons p rest ih =>
    intro st c l hnd
    simp only [List.map_cons, List.nodup_cons] at hnd
    obtain ⟨hnotin, hnd'⟩ := hnd
    have hkeys := key_ne_of_nodup hnotin
    simp only [List.foldl_cons]
    by_cases hex : existsF st (documentKey p) = true
    · have hstep : batchStep env ⟨st, c, l⟩ p
          = ⟨st, { c with skip := c.skip + 1 }, l⟩ := by
        unfold batchStep
        simp only [hex, if_true]
      rw [hstep, ih st { c with skip := c.skip + 1 } l hnd']
      unfold skippedOf failedOf succOf
      rw [List.filter_cons, List.filter_cons, List.filter_cons]
      simp only [hex]
      simp
      omega
    · simp only [Bool.not_eq_true] at hex
      have hpres : ∀ q ∈ rest,
          existsF (processPdf env st p).st (documentKey q)
            = existsF st (documentKey q) :=
        fun q hq => existsF_processPdf_ne env st p _ (hkeys q hq)
      have hres := (processPdf_result_of_not env st p hex).1
      by_cases hfd : failsDoc env p = true
      · have hstep : batchStep env ⟨st, c, l⟩ p
            = ⟨(processPdf env st p).st, { c with fail := c.fail + 1 },
               if (processPdf env st p).spawned then l ++ [p] else l⟩ := by
          unfold batchStep
          simp only [hex, Bool.false_eq_true, if_false, hres, hfd,
            Bool.not_true]
        rw [hstep, ih _ { c with fail := c.fail + 1 } _ hnd']
        rw [skippedOf_congr st _ rest hpres, failedOf_congr env st _ rest hpres,
          succOf_congr env st _ rest hpres]
        unfold skippedOf failedOf succOf
        rw [List.filter_cons, List.filter_cons, List.filter_cons]
        simp only [hex, hfd]
        simp
        omega
      · simp only [Bool.not_eq_true] at hfd
        have hstep : batchStep env ⟨st, c, l⟩ p
            = ⟨(processPdf env st p).st, { c with succ := c.succ + 1 },
               if (processPdf env st p).spawned then l ++ [p] else l⟩ := by
          unfold batchStep
          simp only [hex, Bool.false_eq_true, if_false, hres, hfd,
            Bool.not_false, if_true]
        rw [hstep, ih _ { c with succ := c.succ + 1 } _ hnd']
        rw [skippedOf_congr st _ rest hpres, failedOf_congr env st _ rest hpres,
          succOf_congr env st _ rest hpres]
        unfold skippedOf failedOf succOf
        rw [List.filter_cons, List.filter_cons, List.filter_cons]
        simp only [hex, hfd]
        simp
        omega

/-! ### Claim theorems -/

/-- Claim C1, counterexample: with two CLI arguments but a missing input
directory the run aborts, yet the process exit status is 0, not the status 1
the claim asserts. -/
theorem C1_counterexample :
    mainExit [['i'], ['o']] envOk none [] = (.missingInput, 0)
      ∧ (mainExit [['i'], ['o']] envOk none []).2 ≠ 1 := by
  constructor
  · rfl
  · decide

/-- Claim C1 (amended): the process exits with status 1 exactly when fewer
than two CLI arguments are given; a missing input directory aborts the whole
run (nothing is processed) but the process still exits with status 0, and a
completed run exits 0 regardless of per-document failures. -/
theorem C1_amended :
    ∀ (argv : List Name) (env : Env) (listing : Option (List Name))
      (st : FsState),
    ((mainExit argv env listing st).2 = 1 ↔ argv.length < 2)
      ∧ (2 ≤ argv.length → listing = none →
          mainExit argv env listing st = (.missingInput, 0)) := by
  intro argv env listing st
  unfold mainExit
  by_cases h : argv.length < 2
  · constructor
    · simp [h]
    · intro h2 _
      omega
  · constructor
    · simp [h]
    · intro _ hl
      subst hl
      simp [h, processAllPdfs]

/-- Claim C1 (amended), witness at a two-argument call with a missing input
directory. -/
theorem C1_amended_witness :
    2 ≤ ([['i'], ['o']] : List Name).length
      ∧ mainExit [['i'], ['o']] envOk none [] = (.missingInput, 0) :=
  ⟨by decide, (C1_amended [['i'], ['o']] envOk none []).2 (by decide) rfl⟩

/-- Claim C6: when a document without a pre-existing output folder fails
(nonzero exit or launch failure), `processPdf` reports `false`; if deletion
succeeds no folder for its key remains, and every other key's folder is
untouched; the Failed report does not depend on whether deletion succeeds. -/
theorem C6_cleanup :
    ∀ (env : Env) (st : FsState) (name : Name),
    existsF st (documentKey name) = false →
    failsDoc env name = true →
    (processPdf env st name).result = false
      ∧ (env.rmFails (documentKey name) = false →
          existsF (processPdf env st name).st (documentKey name) = false)
      ∧ (∀ k, k ≠ documentKey name →
          lookupF (processPdf env st name).st k = lookupF st k) := by
  intro env st name hex hfd
  refine ⟨?_, ?_, fun k hk => lookupF_processPdf_ne env st name k hk⟩
  · rw [(processPdf_result_of_not env st name hex).1, hfd]
    rfl
  · intro hrm
    unfold processPdf
    simp only [hex, Bool.false_eq_true, if_false]
    have hnotok : spawnResult (env.conv name).event ≠ .ok true := by
      intro hc
      unfold failsDoc at hfd
      rw [hc] at hfd
      cases hfd
    cases hs : spawnResult (env.conv name).event with
    | ok b =>
      cases b with
      | true => exact absurd hs hnotok
      | false =>
        simp only
        cases ho : (env.conv name).out with
        | some fls =>
          unfold sideEffect cleanup
          simp only [existsF_addFolder_self, if_true, hrm, Bool.false_eq_true,
            if_false]
          rw [removeFolder_addFolder_of_not st _ fls hex]
          exact hex
        | none =>
          unfold sideEffect cleanup
          simp only [hex, Bool.false_eq_true, if_false]
    | error m =>
      simp only
      cases ho : (env.conv name).out with
      | some fls =>
        unfold sideEffect cleanup
        simp only [existsF_addFolder_self, if_true, hrm, Bool.false_eq_true,
          if_false]
        rw [removeFolder_addFolder_of_not st _ fls hex]
        exact hex
      | none =>
        unfold sideEffect cleanup
        simp only [hex, Bool.false_eq_true, if_false]

/-- Claim C6, witness: a failing conversion of `a.pdf` into an empty output
root reports Failed, leaves no `a` folder, and leaves another key alone. -/
theorem C6_witness :
    (processPdf envBad [] "a.pdf".toList).result = false
      ∧ existsF (processPdf envBad [] "a.pdf".toList).st
          (documentKey "a.pdf".toList) = false
      ∧ lookupF (processPdf envBad [] "a.pdf".toList).st ['b']
          = lookupF [] ['b'] :=
  ⟨(C6_cleanup envBad [] ("a.pdf".toList) (by decide) (by decide)).1,
   (C6_cleanup envBad [] ("a.pdf".toList) (by decide) (by decide)).2.1 rfl,
   (C6_cleanup envBad [] ("a.pdf".toList) (by decide) (by decide)).2.2 ['b']
     (by decide)⟩

/-- Claim C7: when the output folder for a document's key already exists,
`processPdf` returns immediately with no spawn, and the batch loop records a
skip without touching the state or the spawn log. -/
theorem C7_skip :
    ∀ (env : Env) (st : FsState) (name : Name),
    existsF st (documentKey name) = true →
    processPdf env st name = ⟨true, st, false⟩
      ∧ ∀ (c : Counts) (l : List Name),
          batchStep env ⟨st, c, l⟩ name
            = ⟨st, { c with skip := c.skip + 1 }, l⟩ := by
  intro env st name h
  constructor
  · exact processPdf_of_existsF env st name h
  · intro c l
    unfold batchStep
    simp only [h, if_true]

/-- Claim C7, witness: with the folder `report` already present, processing
`report.pdf` spawns nothing and is tallied as a skip. -/
theorem C7_witness :
    processPdf envOk [("report".toList, [])] "report.pdf".toList
        = ⟨true, [("report".toList, [])], false⟩
      ∧ batchStep envOk ⟨[("report".toList, [])], ⟨0, 0, 0⟩, []⟩
          "report.pdf".toList
        = ⟨[("report".toList, [])], ⟨0, 1, 0⟩, []⟩ :=
  ⟨(C7_skip envOk [("report".toList, [])] ("report.pdf".toList) (by decide)).1,
   (C7_skip envOk [("report".toList, [])] ("report.pdf".toList) (by decide)).2
     ⟨0, 0, 0⟩ []⟩

/-- Claim C8: `spawnCommand` resolves `true` exactly on exit code 0, resolves
`false` on every nonzero exit code, and a launch failure is a rejection,
distinct from every resolved value; inside `processPdf` that rejection is
caught and downgraded to a Failed outcome for that document alone. -/
theorem C8_spawn :
    (∀ code : Int, spawnResult (.close code) = .ok true ↔ code = 0)
      ∧ (∀ code : Int, code ≠ 0 → spawnResult (.close code) = .ok false)
      ∧ (∀ msg : Name, spawnResult (.launchError msg) = .error msg
          ∧ ∀ b : Bool, spawnResult (.launchError msg) ≠ .ok b)
      ∧ (∀ (env : Env) (st : FsState) (name msg : Name),
          existsF st (documentKey name) = false →
          (env.conv name).event = .launchError msg →
          (processPdf env st name).result = false) := by
  refine ⟨?_, ?_, ?_, ?_⟩
  · intro code
    constructor
    · intro h
      by_cases hc : code = 0
      · exact hc
      · unfold spawnResult at h
        simp [hc] at h
    · intro h
      subst h
      rfl
  · intro code h
    unfold spawnResult
    simp [h]
  · intro msg
    exact ⟨rfl, fun b h => by cases h⟩
  · intro env st name msg hex hev
    have hfd : failsDoc env name = true := by
      unfold failsDoc
      rw [hev]
      rfl
    rw [(processPdf_result_of_not env st name hex).1, hfd]
    rfl

/-- Claim C8, witness: exit 0 resolves true, exit 2 resolves false, a launch
error rejects, and a launch error for `a.pdf` yields a Failed outcome. -/
theorem C8_witness :
    spawnResult (.close 0) = .ok true
      ∧ spawnResult (.close 2) = .ok false
      ∧ spawnResult (.launchError ['e']) = .error ['e']
      ∧ (processPdf envErr [] "a.pdf".toList).result = false :=
  ⟨(C8_spawn.1 0).mpr rfl,
   C8_spawn.2.1 2 (by decide),
   (C8_spawn.2.2.1 ['e']).1,
   C8_spawn.2.2.2 envErr [] ("a.pdf".toList) ['e'] (by decide) rfl⟩

/-- Claim C9: every per-document attempt resolves to a boolean — even a
launch-failure rejection is caught and becomes `false` — and the batch loop
reaches every candidate: the three tallies always sum to the number of
candidates, whatever the converter oracle does. -/
theorem C9_total :
    ∀ (env : Env) (st : FsState) (pdfs : List Name),
    ((runBatch env st pdfs).counts.succ + (runBatch env st pdfs).counts.skip
        + (runBatch env st pdfs).counts.fail = pdfs.length)
      ∧ ∀ name : Name, existsF st (documentKey name) = false →
          (processPdf env st name).result = !failsDoc env name := by
  intro env st pdfs
  constructor
  · have := foldl_batchStep_counts_sum env pdfs ⟨st, ⟨0, 0, 0⟩, []⟩
    simp only [Nat.zero_add, Nat.add_zero] at this
    unfold runBatch
    omega
  · intro name hex
    exact (processPdf_result_of_not env st name hex).1

/-- Claim C9, witness: a batch over one launch-failing document still tallies
one outcome, and the rejection resolves to `false`. -/
theorem C9_witness :
    ((runBatch envErr [] ["a.pdf".toList]).counts.succ
        + (runBatch envErr [] ["a.pdf".toList]).counts.skip
        + (runBatch envErr [] ["a.pdf".toList]).counts.fail = 1)
      ∧ (processPdf envErr [] "a.pdf".toList).result
          = !failsDoc envErr "a.pdf".toList :=
  ⟨(C9_total envErr [] ["a.pdf".toList]).1,
   (C9_total envErr [] ["a.pdf".toList]).2 ("a.pdf".toList) (by decide)⟩

/-- Claim C10: called directly with the output folder already present, the
single-document converter returns `true`, the same value as a successful
conversion, so the two are indistinguishable at its interface; the batch's
Skipped tally moves only through the orchestrator's own pre-check, never
through `processPdf`'s return value. -/
theorem C10_indist :
    ∀ (env : Env) (st : FsState) (name : Name),
    (existsF st (documentKey name) = true →
        (processPdf env st name).result = true)
      ∧ (existsF st (documentKey name) = false → failsDoc env name = false →
        (processPdf env st name).result = true)
      ∧ (∀ (c : Counts) (l : List Name),
          existsF st (documentKey name) = false →
          (batchStep env ⟨st, c, l⟩ name).counts.skip = c.skip) := by
  intro env st name
  refine ⟨?_, ?_, ?_⟩
  · intro h
    rw [processPdf_of_existsF env st name h]
  · intro hex hfd
    rw [(processPdf_result_of_not env st name hex).1, hfd]
    rfl
  · intro c l hex
    unfold batchStep
    simp only [hex, Bool.false_eq_true, if_false]
    by_cases hr : (processPdf env st name).result = true
    · simp only [hr, if_true]
    · simp only [Bool.not_eq_true] at hr
      simp only [hr, Bool.false_eq_true, if_false]

/-- Claim C10, witness: a pre-existing `report` folder makes `processPdf`
return `true` just as a fresh successful conversion does, and the skip tally
is untouched when the pre-check sees no folder. -/
theorem C10_witness :
    (processPdf envOk [("report".toList, [])] "report.pdf".toList).result = true
      ∧ (processPdf envOk [] "report.pdf".toList).result = true
      ∧ (batchStep envOk ⟨[], ⟨0, 0, 0⟩, []⟩ "report.pdf".toList).counts.skip
          = 0 :=
  ⟨(C10_indist envOk [("report".toList, [])] ("report.pdf".toList)).1 (by decide),
   (C10_indist envOk [] ("report.pdf".toList)).2.1 (by decide) (by decide),
   (C10_indist envOk [] ("report.pdf".toList)).2.2 ⟨0, 0, 0⟩ [] (by decide)⟩

theorem batchStepC_eq_batchStep (env : Env) (acc : BatchAcc) (name : Name)
    (h : converterStem name = documentKey name) :
    batchStepC env acc name = batchStep env acc name := by
  unfold batchStepC batchStep processPdfC processPdf
  rw [h]

theorem foldl_batchStepC_eq (env : Env) :
    ∀ pdfs : List Name, (∀ p ∈ pdfs, converterStem p = documentKey p) →
      ∀ acc : BatchAcc,
        pdfs.foldl (batchStepC env) acc = pdfs.foldl (batchStep env) acc := by
  intro pdfs
  induction pdfs with
  | nil => intro _ acc; rfl
  | cons p rest ih =>
    intro h acc
    simp only [List.foldl_cons]
    rw [batchStepC_eq_batchStep env acc p (h p (by simp))]
    exact ih (fun q hq => h q (by simp [hq])) _

theorem runBatchC_eq_runBatch (env : Env) (st : FsState) (pdfs : List Name)
    (h : ∀ p ∈ pdfs, converterStem p = documentKey p) :
    runBatchC env st pdfs = runBatch env st pdfs :=
  foldl_batchStepC_eq env pdfs h _

/-- Claim C4, counterexample: `a.PDF` and `a.pdf` are both accepted by the
batch filter and have distinct document keys (`a.PDF` and `a`); with an
empty output root (S = 0) and a contract-honouring converter that always
succeeds (F = 0), converting `a.PDF` creates the contracted folder `a`, so
`a.pdf` is tallied Skipped: the run reports one success and one skip, not
the N − S − F = 2 successes the claim demands. -/
theorem C4_counterexample :
    pdfFilter "a.PDF".toList = true
      ∧ pdfFilter "a.pdf".toList = true
      ∧ (["a.PDF".toList, "a.pdf".toList].map documentKey).Nodup
      ∧ skippedOf [] ["a.PDF".toList, "a.pdf".toList] = 0
      ∧ failedOf envOk [] ["a.PDF".toList, "a.pdf".toList] = 0
      ∧ (runBatchC envOk [] ["a.PDF".toList, "a.pdf".toList]).counts
          ≠ ⟨2, 0, 0⟩ := by
  refine ⟨by decide, by decide, by decide, by decide, by decide, by decide⟩

/-- Claim C4 (amended): provided every candidate's document key coincides
with the base-name-without-extension folder the converter is contracted to
create (that is, every accepted extension is exactly the lower-case `.pdf`)
and no two candidates share a key, the final tallies are exactly
Skipped = S (candidates whose folder pre-exists), Failed = F (folder-less
candidates whose conversion fails), Succeeded = N − S − F, and the three
always sum to N. -/
theorem C4_amended :
    ∀ (env : Env) (st : FsState) (pdfs : List Name),
    (∀ p ∈ pdfs, converterStem p = documentKey p) →
    (pdfs.map documentKey).Nodup →
    (runBatchC env st pdfs).counts.skip = skippedOf st pdfs
      ∧ (runBatchC env st pdfs).counts.fail = failedOf env st pdfs
      ∧ (runBatchC env st pdfs).counts.succ
          = pdfs.length - skippedOf st pdfs - failedOf env st pdfs
      ∧ (runBatchC env st pdfs).counts.succ
          + (runBatchC env st pdfs).counts.skip
          + (runBatchC env st pdfs).counts.fail = pdfs.length := by
  intro env st pdfs hstem hnd
  rw [runBatchC_eq_runBatch env st pdfs hstem]
  have h := foldl_batchStep_counts_nodup env pdfs st ⟨0, 0, 0⟩ [] hnd
  have hp := counts_partition env st pdfs
  unfold runBatch
  rw [h]
  simp only [Nat.zero_add]
  refine ⟨by simp, by simp, by omega, by omega⟩

/-- Claim C4 (amended), witness: two lower-case-`.pdf`, distinct-keyed
documents, one with a pre-existing folder, against an always-failing
converter. -/
theorem C4_amended_witness :
    (runBatchC envBad [("a".toList, [])]
        ["a.pdf".toList, "b.pdf".toList]).counts.skip
      = skippedOf [("a".toList, [])] ["a.pdf".toList, "b.pdf".toList]
      ∧ (runBatchC envBad [("a".toList, [])]
          ["a.pdf".toList, "b.pdf".toList]).counts.fail
        = failedOf envBad [("a".toList, [])] ["a.pdf".toList, "b.pdf".toList]
      ∧ (runBatchC envBad [("a".toList, [])]
          ["a.pdf".toList, "b.pdf".toList]).counts.succ
        = ["a.pdf".toList, "b.pdf".toList].length
            - skippedOf [("a".toList, [])] ["a.pdf".toList, "b.pdf".toList]
            - failedOf envBad [("a".toList, [])] ["a.pdf".toList, "b.pdf".toList]
      ∧ (runBatchC envBad [("a".toList, [])]
            ["a.pdf".toList, "b.pdf".toList]).counts.succ
          + (runBatchC envBad [("a".toList, [])]
              ["a.pdf".toList, "b.pdf".toList]).counts.skip
          + (runBatchC envBad [("a".toList, [])]
              ["a.pdf".toList, "b.pdf".toList]).counts.fail
        = ["a.pdf".toList, "b.pdf".toList].length :=
  C4_amended envBad [("a".toList, [])] ["a.pdf".toList, "b.pdf".toList]
    (by decide) (by decide)

/-- Claim C5, counterexample: over one document whose conversion fails, the
second run of the batch re-attempts (and re-fails) the document instead of
skipping it: it reports zero Skipped for one candidate. -/
theorem C5_counterexample :
    (runBatch envBad (runState envBad [] ["a.pdf".toList])
        ["a.pdf".toList]).counts.skip = 0
      ∧ ["a.pdf".toList].length = 1
      ∧ (runBatch envBad (runState envBad [] ["a.pdf".toList])
          ["a.pdf".toList]).counts.fail = 1 := by
  refine ⟨by decide, by decide, by decide⟩

/-- Claim C5 (amended): a second run over an unchanged input leaves the
output tree exactly as the first run left it; and when the first run reports
no failures (with a converter that creates the contracted output folder on
every success), the second run reports every document as Skipped. -/
theorem C5_amended :
    ∀ (env : Env) (st : FsState) (pdfs : List Name),
    runState env (runState env st pdfs) pdfs = runState env st pdfs
      ∧ ((∀ p ∈ pdfs,
            spawnResult (env.conv p).event = .ok true → (env.conv p).out ≠ none) →
          (runBatch env st pdfs).counts.fail = 0 →
          (runBatch env (runState env st pdfs) pdfs).counts
            = ⟨0, pdfs.length, 0⟩) := by
  intro env st pdfs
  refine ⟨runState_idem env pdfs st, ?_⟩
  intro hconv hfail
  have hfail0 : (pdfs.foldl (batchStep env) ⟨st, ⟨0, 0, 0⟩, []⟩).counts.fail
      = (⟨st, ⟨0, 0, 0⟩, []⟩ : BatchAcc).counts.fail := by
    unfold runBatch at hfail
    exact hfail
  have hall := fail_zero_all_exist env pdfs ⟨st, ⟨0, 0, 0⟩, []⟩ hconv hfail0
  have hall' : ∀ p ∈ pdfs,
      existsF (runState env st pdfs) (documentKey p) = true := by
    intro p hp
    have := hall p hp
    unfold runState
    exact this
  have := foldl_batchStep_all_skip env pdfs
    ⟨runState env st pdfs, ⟨0, 0, 0⟩, []⟩ hall'
  unfold runBatch
  rw [this]
  simp

/-- Claim C5 (amended), witness: one always-succeeding document — the state
is a fixed point and the second run reports it as Skipped. -/
theorem C5_amended_witness :
    runState envOk (runState envOk [] ["a.pdf".toList]) ["a.pdf".toList]
        = runState envOk [] ["a.pdf".toList]
      ∧ (runBatch envOk (runState envOk [] ["a.pdf".toList])
          ["a.pdf".toList]).counts = ⟨0, 1, 0⟩ :=
  ⟨(C5_amended envOk [] ["a.pdf".toList]).1,
   (C5_amended envOk [] ["a.pdf".toList]).2
     (fun p _ _ => by simp [envOk]) (by decide)⟩

/-! ### Facts about `extname` and `documentKey` -/

theorem takeWhile_fdp (w : List Char) :
    ('f' :: 'd' :: 'p' :: '.' :: w).takeWhile (fun c => c != '.')
      = ['f', 'd', 'p'] := by
  have hf : (('f' : Char) != '.') = true := by decide
  have hd : (('d' : Char) != '.') = true := by decide
  have hp : (('p' : Char) != '.') = true := by decide
  have hdot : (('.' : Char) != '.') = false := by decide
  simp [List.takeWhile_cons, hf, hd, hp, hdot]

theorem dropWhile_fdp (w : List Char) :
    ('f' :: 'd' :: 'p' :: '.' :: w).dropWhile (fun c => c != '.')
      = '.' :: w := by
  have hf : (('f' : Char) != '.') = true := by decide
  have hd : (('d' : Char) != '.') = true := by decide
  have hp : (('p' : Char) != '.') = true := by decide
  have hdot : (('.' : Char) != '.') = false := by decide
  simp [List.dropWhile_cons, hf, hd, hp, hdot]

/-- Appending the literal `.pdf` to a nonempty stem yields extension `.pdf`. -/
theorem extname_append_pdf (u : Name) (hu : u ≠ []) :
    extname (u ++ pdfExtL) = pdfExtL := by
  obtain ⟨y, t, hyt⟩ : ∃ y t, u.reverse = y :: t := by
    cases hr : u.reverse with
    | nil => exact absurd (List.reverse_eq_nil_iff.mp hr) hu
    | cons y t => exact ⟨y, t, rfl⟩
  have hrev : (u ++ pdfExtL).reverse = 'f' :: 'd' :: 'p' :: '.' :: u.reverse := by
    rw [List.reverse_append]
    rfl
  unfold extname
  rw [hrev, dropWhile_fdp, takeWhile_fdp, hyt]
  rfl

theorem dropWhile_head_not {p : Char → Bool} :
    ∀ (l : List Char) (x : Char) (xs : List Char),
      l.dropWhile p = x :: xs → p x = false := by
  intro l
  induction l with
  | nil => intro x xs h; cases h
  | cons a l ih =>
    intro x xs h
    rw [List.dropWhile_cons] at h
    by_cases hp : p a = true
    · rw [if_pos hp] at h
      exact ih x xs h
    · simp only [Bool.not_eq_true] at hp
      rw [hp] at h
      simp only [Bool.false_eq_true, if_false] at h
      cases h
      simpa using hp

/-- Conversely, extension `.pdf` forces the name to be a nonempty stem
followed by the literal `.pdf`. -/
theorem append_pdf_of_extname (cs : Name) (h : extname cs = pdfExtL) :
    ∃ u, u ≠ [] ∧ cs = u ++ pdfExtL := by
  unfold extname at h
  split at h
  · cases h
  · cases h
  · rename_i x y t heq
    have htake : cs.reverse.takeWhile (fun c => c != '.') = ['f', 'd', 'p'] := by
      have h1 : ((cs.reverse.takeWhile (fun c => c != '.')).reverse)
          = ['p', 'd', 'f'] := by
        injection h with h1 h2
      rw [← List.reverse_reverse (cs.reverse.takeWhile (fun c => c != '.')), h1]
      decide
    have hx : x = '.' := by
      have := dropWhile_head_not cs.reverse x (y :: t) heq
      simpa using this
    have hr : cs.reverse = ['f', 'd', 'p'] ++ (x :: y :: t) := by
      rw [← htake, ← heq]
      exact (List.takeWhile_append_dropWhile _ _).symm
    refine ⟨(y :: t).reverse, by simp, ?_⟩
    have := congrArg List.reverse hr
    rw [List.reverse_reverse] at this
    rw [this, hx]
    simp [pdfExtL]

/-- A name whose extension is exactly the literal `.pdf` has its document
key equal to the name with the last four characters removed. -/
theorem documentKey_of_extname_pdf (cs : Name) (h : extname cs = pdfExtL) :
    documentKey cs = cs.take (cs.length - 4) := by
  obtain ⟨u, hu, rfl⟩ := append_pdf_of_extname cs h
  unfold documentKey
  rw [if_pos]
  constructor
  · exact List.isSuffixOf_iff_suffix.mpr ⟨u, rfl⟩
  · intro hc
    apply hu
    have hlen := congrArg List.length hc
    rw [List.length_append] at hlen
    exact List.eq_nil_of_length_eq_zero (by omega)

/-- A name whose extension is not the literal `.pdf` keeps its full name as
document key. -/
theorem documentKey_of_extname_ne (cs : Name) (h : extname cs ≠ pdfExtL) :
    documentKey cs = cs := by
  unfold documentKey
  rw [if_neg]
  intro hc
  obtain ⟨hsuf, hne⟩ := hc
  obtain ⟨u, hu⟩ := List.isSuffixOf_iff_suffix.mp hsuf
  apply h
  have hu0 : u ≠ [] := by
    intro h0
    subst h0
    simp at hu
    exact hne hu.symm
  rw [← hu]
  exact extname_append_pdf u hu0

/-- Claim C2, counterexample: `a.PDF` is accepted by the case-insensitive
batch filter, but its document key is `a.PDF`, not the extension-stripped
`a`: `path.basename(p, '.pdf')` only strips the lower-case suffix. -/
theorem C2_counterexample :
    pdfFilter "a.PDF".toList = true
      ∧ documentKey "a.PDF".toList ≠ "a".toList := by
  exact ⟨by decide, by decide⟩

/-- Claim C2 (amended): for every file accepted by the batch filter, the
document key equals the file name with its extension removed when the
extension is exactly the lower-case `.pdf`; for the other accepted spellings
(`.PDF`, `.Pdf`, ...) the key is the whole file name, extension included. -/
theorem C2_amended :
    ∀ cs : Name, pdfFilter cs = true →
    (extname cs = pdfExtL → documentKey cs = cs.take (cs.length - 4))
      ∧ (extname cs ≠ pdfExtL → documentKey cs = cs) := by
  intro cs _
  exact ⟨documentKey_of_extname_pdf cs, documentKey_of_extname_ne cs⟩

/-- Claim C2 (amended), witness at `a.pdf`: the filter accepts it and its key
is the stem `a`. -/
theorem C2_amended_witness :
    pdfFilter "a.pdf".toList = true
      ∧ documentKey "a.pdf".toList
          = "a.pdf".toList.take ("a.pdf".toList.length - 4) :=
  ⟨by decide, (C2_amended "a.pdf".toList (by decide)).1 (by decide)⟩

/-! ### Greedy-match facts for the rewriter -/

theorem bodyLenFrom_some (n : Nat) (cs : Name) (k : Nat)
    (h : bodyLenFrom n cs = some k) :
    1 ≤ k ∧ k ≤ n ∧ jpegPat.isPrefixOf (cs.drop k) = true := by
  induction n with
  | zero => cases h
  | succ n ih =>
    unfold bodyLenFrom at h
    by_cases hp : jpegPat.isPrefixOf (cs.drop (n + 1)) = true
    · rw [if_pos hp] at h
      injection h with h
      subst h
      exact ⟨by omega, Nat.le_refl _, hp⟩
    · rw [if_neg hp] at h
      obtain ⟨h1, h2, h3⟩ := ih h
      exact ⟨h1, by omega, h3⟩

theorem bodyLenFrom_max (n : Nat) (cs : Name) (k : Nat)
    (h : bodyLenFrom n cs = some k) :
    ∀ j, 1 ≤ j → j ≤ n → jpegPat.isPrefixOf (cs.drop j) = true → j ≤ k := by
  induction n with
  | zero => intro j _ hj0 _; omega
  | succ n ih =>
    intro j hj1 hjn hjp
    unfold bodyLenFrom at h
    by_cases hp : jpegPat.isPrefixOf (cs.drop (n + 1)) = true
    · rw [if_pos hp] at h
      injection h with h
      omega
    · rw [if_neg hp] at h
      rcases Nat.lt_or_ge j (n + 1) with hlt | hge
      · exact ih h j hj1 (by omega) hjp
      · have hj : j = n + 1 := by omega
        subst hj
        exact absurd hjp hp

theorem bodyLenFrom_none (n : Nat) (cs : Name)
    (h : bodyLenFrom n cs = none) :
    ∀ j, 1 ≤ j → j ≤ n → ¬ jpegPat.isPrefixOf (cs.drop j) = true := by
  induction n with
  | zero => intro j _ hj0 _; omega
  | succ n ih =>
    intro j hj1 hjn hjp
    unfold bodyLenFrom at h
    by_cases hp : jpegPat.isPrefixOf (cs.drop (n + 1)) = true
    · rw [if_pos hp] at h
      cases h
    · rw [if_neg hp] at h
      rcases Nat.lt_or_ge j (n + 1) with hlt | hge
      · exact ih h j hj1 (by omega) hjp
      · have hj : j = n + 1 := by omega
        subst hj
        exact hp hjp

theorem mem_take_takeWhile (p : Char → Bool) :
    ∀ (cs : Name) (j : Nat), j ≤ (cs.takeWhile p).length →
      ∀ c ∈ cs.take j, p c = true := by
  intro cs
  induction cs with
  | nil =>
    intro j _ c hc
    simp at hc
  | cons a l ih =>
    intro j hj c hc
    cases j with
    | zero => simp at hc
    | succ j =>
      rw [List.takeWhile_cons] at hj
      by_cases hpa : p a = true
      · rw [if_pos hpa] at hj
        simp only [List.length_cons] at hj
        rw [List.take_succ_cons] at hc
        rcases List.mem_cons.mp hc with rfl | hcl
        · exact hpa
        · exact ih j (by omega) c hcl
      · simp only [Bool.not_eq_true] at hpa
        rw [hpa] at hj
        simp at hj


theorem valid_le_takeWhile :
    ∀ (cs : Name) (j : Nat), 1 ≤ j →
      (∀ c ∈ cs.take j, (c != ')') = true) →
      jpegPat.isPrefixOf (cs.drop j) = true →
      j ≤ (cs.takeWhile (fun c => c != ')')).length := by
  intro cs
  induction cs with
  | nil =>
    intro j _ _ hjp
    rw [List.drop_nil] at hjp
    exact absurd hjp (by decide)
  | cons a l ih =>
    intro j hj1 hnp hjp
    cases j with
    | zero => omega
    | succ j =>
      have ha : (a != ')') = true := hnp a (by simp)
      rw [List.takeWhile_cons, if_pos ha]
      simp only [List.length_cons]
      cases Nat.eq_zero_or_pos j with
      | inl h0 =>
        subst h0
        omega
      | inr hjpos =>
        have hstep := ih j hjpos
          (fun c hc => hnp c (by rw [List.take_succ_cons]; exact List.mem_cons_of_mem a hc))
          (by rw [List.drop_succ_cons] at hjp; exact hjp)
        omega

theorem findBodyLen_some_valid (cs : Name) (k : Nat)
    (h : findBodyLen cs = some k) :
    1 ≤ k ∧ jpegPat.isPrefixOf (cs.drop k) = true
      ∧ ∀ c ∈ cs.take k, (c != ')') = true := by
  unfold findBodyLen at h
  obtain ⟨h1, h2, h3⟩ := bodyLenFrom_some _ cs k h
  exact ⟨h1, h3, mem_take_takeWhile _ cs k h2⟩

theorem findBodyLen_some_max (cs : Name) (k : Nat)
    (h : findBodyLen cs = some k) :
    ∀ j, 1 ≤ j → (∀ c ∈ cs.take j, (c != ')') = true) →
      jpegPat.isPrefixOf (cs.drop j) = true → j ≤ k := by
  intro j hj1 hnp hjp
  unfold findBodyLen at h
  exact bodyLenFrom_max _ cs k h j hj1 (valid_le_takeWhile cs j hj1 hnp hjp) hjp

theorem findBodyLen_none_invalid (cs : Name)
    (h : findBodyLen cs = none) :
    ∀ j, 1 ≤ j → (∀ c ∈ cs.take j, (c != ')') = true) →
      ¬ jpegPat.isPrefixOf (cs.drop j) = true := by
  intro j hj1 hnp hjp
  unfold findBodyLen at h
  exact bodyLenFrom_none _ cs h j hj1 (valid_le_takeWhile cs j hj1 hnp hjp) hjp

theorem valid_of_decomp (v w : Name) (hv : v ≠ []) (hnp : ')' ∉ v) :
    1 ≤ v.length
      ∧ (∀ c ∈ (v ++ (jpegPat ++ w)).take v.length, (c != ')') = true)
      ∧ jpegPat.isPrefixOf ((v ++ (jpegPat ++ w)).drop v.length) = true := by
  refine ⟨List.length_pos.mpr hv, ?_, ?_⟩
  · intro c hc
    rw [List.take_left] at hc
    have hcc : c ≠ ')' := fun he => hnp (he ▸ hc)
    simpa using hcc
  · rw [List.drop_left]
    exact List.isPrefixOf_iff_prefix.mpr (List.prefix_append _ _)

theorem substStep_cons_ne (m b a : Name) (go : Name → Name) (c : Char)
    (l : Name) (hc : c ≠ dollarChar) :
    substStep m b a go (c :: l) = c :: go l := by
  unfold substStep
  simp [hc]

theorem getSubstitution_append_no_dollar (m b a : Name) :
    ∀ (w rest : Name) (fuel : Nat), dollarChar ∉ w →
      getSubstitution m b a (w.length + fuel) (w ++ rest)
        = w ++ getSubstitution m b a fuel rest := by
  intro w
  induction w with
  | nil =>
    intro rest fuel _
    simp
  | cons c w ih =>
    intro rest fuel hnd
    have hc : c ≠ dollarChar := by
      intro he
      exact hnd (he ▸ List.mem_cons_self c w)
    have hnd2 : dollarChar ∉ w := fun hin => hnd (List.mem_cons_of_mem c hin)
    have hlen : (c :: w).length + fuel = (w.length + fuel) + 1 := by
      simp [List.length_cons]
      omega
    rw [hlen]
    show substStep m b a (getSubstitution m b a (w.length + fuel))
        (c :: (w ++ rest)) = _
    rw [substStep_cons_ne m b a _ c (w ++ rest) hc, ih rest fuel hnd2]
    simp

theorem runSubstitution_urlTemplate (key m b a : Name)
    (hk : dollarChar ∉ key) :
    runSubstitution m b a (urlTemplate key) = urlPre key ++ m := by
  have hw : urlTemplate key
      = (urlHead ++ key ++ ['/']) ++ [dollarChar, '1'] := by
    simp [urlTemplate, List.append_assoc]
  have hnd : dollarChar ∉ (urlHead ++ key ++ ['/']) := by
    intro hin
    rcases List.mem_append.mp hin with hin2 | hin3
    · rcases List.mem_append.mp hin2 with hh | hkk
      · exact absurd hh (by decide)
      · exact hk hkk
    · exact absurd hin3 (by decide)
  have hlen : (urlTemplate key).length
      = (urlHead ++ key ++ ['/']).length + 2 := by
    rw [hw, List.length_append]
    rfl
  unfold runSubstitution
  rw [hlen, hw, getSubstitution_append_no_dollar m b a _ _ 2 hnd]
  have h2 : getSubstitution m b a 2 [dollarChar, '1'] = m ++ [] := rfl
  rw [h2]
  simp [urlPre, List.append_assoc]

theorem replaceGoFull_succ_match (key : Name) (fuel : Nat) (pre cs : Name)
    (hpre : pagePat.isPrefixOf cs = true) (k : Nat)
    (hfb : findBodyLen (cs.drop 5) = some k) :
    replaceGoFull key (fuel + 1) pre cs
      = runSubstitution (cs.take (10 + k)) pre (cs.drop (10 + k)) (urlTemplate key)
          ++ replaceGoFull key fuel (pre ++ cs.take (10 + k)) (cs.drop (10 + k)) := by
  show replaceStepFull key (replaceGoFull key fuel) pre cs = _
  unfold replaceStepFull
  rw [if_pos hpre, hfb]

theorem replaceGoFull_succ_keep_nopre (key : Name) (fuel : Nat) (c : Char)
    (pre rest : Name) (hpre : ¬ pagePat.isPrefixOf (c :: rest) = true) :
    replaceGoFull key (fuel + 1) pre (c :: rest)
      = c :: replaceGoFull key fuel (pre ++ [c]) rest := by
  show replaceStepFull key (replaceGoFull key fuel) pre (c :: rest) = _
  unfold replaceStepFull
  rw [if_neg hpre]

theorem replaceGoFull_succ_keep_none (key : Name) (fuel : Nat) (c : Char)
    (pre rest : Name) (hpre : pagePat.isPrefixOf (c :: rest) = true)
    (hfb : findBodyLen ((c :: rest).drop 5) = none) :
    replaceGoFull key (fuel + 1) pre (c :: rest)
      = c :: replaceGoFull key fuel (pre ++ [c]) rest := by
  show replaceStepFull key (replaceGoFull key fuel) pre (c :: rest) = _
  unfold replaceStepFull
  rw [if_pos hpre, hfb]

theorem not_isMatch_of_not_pre (cs : Name)
    (hpre : ¬ pagePat.isPrefixOf cs = true) :
    ∀ m rest, cs = m ++ rest → ¬ IsMatch m := by
  intro m rest hdec hm
  obtain ⟨v, hmv, hv, hnp⟩ := hm
  apply hpre
  apply List.isPrefixOf_iff_prefix.mpr
  refine ⟨(v ++ jpegPat) ++ rest, ?_⟩
  rw [hdec, hmv]
  simp [List.append_assoc]

theorem not_isMatch_of_none (cs : Name)
    (hfb : findBodyLen (cs.drop 5) = none) :
    ∀ m rest, cs = m ++ rest → ¬ IsMatch m := by
  intro m rest hdec hm
  obtain ⟨v, hmv, hv, hnp⟩ := hm
  have hcs2 : cs = pagePat ++ (v ++ (jpegPat ++ rest)) := by
    rw [hdec, hmv]
    simp [List.append_assoc]
  have hdrop : cs.drop 5 = v ++ (jpegPat ++ rest) := by
    rw [hcs2]
    have h5 : (5 : Nat) = pagePat.length := by decide
    rw [h5, List.drop_left]
  obtain ⟨h1, h2, h3⟩ := valid_of_decomp v rest hv hnp
  exact findBodyLen_none_invalid (cs.drop 5) hfb v.length h1
    (by rw [hdrop]; exact h2) (by rw [hdrop]; exact h3)

theorem match_max_of_some (cs : Name) (k : Nat)
    (hfb : findBodyLen (cs.drop 5) = some k) :
    ∀ m2 rest2, cs = m2 ++ rest2 → IsMatch m2 → m2.length ≤ 10 + k := by
  intro m2 rest2 hdec hm2
  obtain ⟨v, hmv, hv, hnp⟩ := hm2
  have hcs2 : cs = pagePat ++ (v ++ (jpegPat ++ rest2)) := by
    rw [hdec, hmv]
    simp [List.append_assoc]
  have hdrop : cs.drop 5 = v ++ (jpegPat ++ rest2) := by
    rw [hcs2]
    have h5 : (5 : Nat) = pagePat.length := by decide
    rw [h5, List.drop_left]
  obtain ⟨h1, h2, h3⟩ := valid_of_decomp v rest2 hv hnp
  have hle := findBodyLen_some_max (cs.drop 5) k hfb v.length h1
    (by rw [hdrop]; exact h2) (by rw [hdrop]; exact h3)
  have hlen2 : m2.length = 10 + v.length := by
    have hlen3 : m2.length = pagePat.length + (v.length + jpegPat.length) := by
      rw [hmv]
      simp [List.length_append]
    have hp5 : pagePat.length = 5 := by decide
    have hj5 : jpegPat.length = 5 := by decide
    omega
  omega

theorem match_decomp (cs : Name) (k : Nat)
    (hpre : pagePat.isPrefixOf cs = true)
    (hfb : findBodyLen (cs.drop 5) = some k) :
    ∃ v rest, cs = (pagePat ++ v ++ jpegPat) ++ rest
      ∧ cs.take (10 + k) = pagePat ++ v ++ jpegPat
      ∧ cs.drop (10 + k) = rest
      ∧ v ≠ [] ∧ ')' ∉ v ∧ v.length = k := by
  obtain ⟨tail0, htail⟩ := List.isPrefixOf_iff_prefix.mp hpre
  have hdrop5 : cs.drop 5 = tail0 := by
    rw [← htail]
    have h5 : (5 : Nat) = pagePat.length := by decide
    rw [h5, List.drop_left]
  obtain ⟨hk1, hkp, hknp⟩ := findBodyLen_some_valid (cs.drop 5) k hfb
  rw [hdrop5] at hkp hknp
  have hkle : k ≤ tail0.length := by
    by_contra hgt
    push_neg at hgt
    rw [List.drop_eq_nil_of_le (by omega)] at hkp
    exact absurd hkp (by decide)
  obtain ⟨rest, hrest⟩ := List.isPrefixOf_iff_prefix.mp hkp
  have hvlen : (tail0.take k).length = k := by
    rw [List.length_take]
    omega
  have htail0 : tail0 = tail0.take k ++ (jpegPat ++ rest) := by
    rw [hrest]
    exact (List.take_append_drop k tail0).symm
  have hdec : cs = (pagePat ++ tail0.take k ++ jpegPat) ++ rest := by
    rw [← htail]
    conv_lhs => rw [htail0]
    simp [List.append_assoc]
  have hmlen : (pagePat ++ tail0.take k ++ jpegPat).length = 10 + k := by
    have := hvlen
    have hp5 : pagePat.length = 5 := by decide
    have hj5 : jpegPat.length = 5 := by decide
    simp [List.length_append]
    omega
  refine ⟨tail0.take k, rest, hdec, ?_, ?_, ?_, ?_, hvlen⟩
  · rw [hdec, ← hmlen, List.take_left]
  · rw [hdec, ← hmlen, List.drop_left]
  · intro h0
    rw [h0] at hvlen
    simp at hvlen
    omega
  · intro hin
    have := hknp ')' hin
    simp at this

/-- The fuelled scanner realises the left-to-right maximal-match rewrite
relation whenever the document key holds no `$` character, so that the
expanded replacement template is exactly `http://localhost:3000/<key>/`
followed by the match; any fuel dominating the input length works. -/
theorem replaceGoFull_rewrites (key : Name) (hk : dollarChar ∉ key) :
    ∀ (fuel : Nat) (pre cs : Name), cs.length ≤ fuel →
      Rewrites key cs (replaceGoFull key fuel pre cs) := by
  intro fuel
  induction fuel with
  | zero =>
    intro pre cs hcs
    have h0 : cs = [] := List.eq_nil_of_length_eq_zero (by omega)
    subst h0
    exact Rewrites.nil
  | succ fuel ih =>
    intro pre cs hcs
    by_cases hpre : pagePat.isPrefixOf cs = true
    · cases hfb : findBodyLen (cs.drop 5) with
      | some k =>
        obtain ⟨v, rest, hdec, htake, hdrop, hv, hnp, hvlen⟩ :=
          match_decomp cs k hpre hfb
        have hrest : Rewrites key rest
            (replaceGoFull key fuel (pre ++ (pagePat ++ v ++ jpegPat)) rest) := by
          apply ih
          have h1 : cs.length = (pagePat ++ v ++ jpegPat).length + rest.length := by
            rw [hdec, List.length_append]
          have h2 : 0 < (pagePat ++ v ++ jpegPat).length := by
            simp [pagePat]
          omega
        have hmax : ∀ m2 rest2,
            (pagePat ++ v ++ jpegPat) ++ rest = m2 ++ rest2 → IsMatch m2 →
              m2.length ≤ (pagePat ++ v ++ jpegPat).length := by
          intro m2 rest2 heq hm2
          have hle := match_max_of_some cs k hfb m2 rest2 (by rw [hdec]; exact heq) hm2
          have hmlen : (pagePat ++ v ++ jpegPat).length = 10 + k := by
            have hp5 : pagePat.length = 5 := by decide
            have hj5 : jpegPat.length = 5 := by decide
            simp [List.length_append]
            omega
          omega
        have hrepl := @Rewrites.repl key (pagePat ++ v ++ jpegPat) rest
          (replaceGoFull key fuel (pre ++ (pagePat ++ v ++ jpegPat)) rest)
          ⟨v, rfl, hv, hnp⟩ hmax hrest
        rw [replaceGoFull_succ_match key fuel pre cs hpre k hfb,
          runSubstitution_urlTemplate key _ pre _ hk, htake, hdrop, hdec]
        simpa [List.append_assoc] using hrepl
      | none =>
        cases cs with
        | nil => exact absurd hpre (by decide)
        | cons c rest =>
          rw [replaceGoFull_succ_keep_none key fuel c pre rest hpre hfb]
          refine Rewrites.keep (not_isMatch_of_none (c :: rest) hfb) ?_
          apply ih
          simp only [List.length_cons] at hcs
          omega
    · cases cs with
      | nil =>
        have h0 : replaceGoFull key (fuel + 1) pre ([] : Name) = [] := rfl
        rw [h0]
        exact Rewrites.nil
      | cons c rest =>
        rw [replaceGoFull_succ_keep_nopre key fuel c pre rest hpre]
        refine Rewrites.keep (not_isMatch_of_not_pre (c :: rest) hpre) ?_
        apply ih
        simp only [List.length_cons] at hcs
        omega

/-- Claim C3, counterexample, in two parts.  First, the text `_page).jpeg`
is a substring that begins with `_page` and ends with `.jpeg`, yet the
rewriter leaves the file content unchanged — the regex `_page[^)]+\.jpeg`
excludes `)` from the matched body — so it is not replaced by the URL the
claim prescribes.  Second, the claim's URL shape is also wrong for reachable
document keys containing `$`: the file `x$&y.pdf` passes the filter and has
key `x$&y`, but the interpolated replacement template expands `$&` to the
match, producing `http://localhost:3000/x_page_3.jpegy/_page_3.jpeg` instead
of a URL containing the key. -/
theorem C3_counterexample :
    ("_page).jpeg".toList = pagePat ++ [')'] ++ jpegPat
      ∧ replaceImagePathsContent "report" "_page).jpeg" = "_page).jpeg"
      ∧ replaceImagePathsContent "report" "_page).jpeg"
          ≠ "http://localhost:3000/report/_page).jpeg")
      ∧ (pdfFilter "x$&y.pdf".toList = true
      ∧ documentKey "x$&y.pdf".toList = "x$&y".toList
      ∧ replaceImagePathsContent "x$&y" "_page_3.jpeg"
          = "http://localhost:3000/x_page_3.jpegy/_page_3.jpeg"
      ∧ replaceImagePathsContent "x$&y" "_page_3.jpeg"
          ≠ "http://localhost:3000/x$&y/_page_3.jpeg") := by
  refine ⟨⟨by decide, by decide, by decide⟩, by decide, by decide, by decide,
    by decide⟩

/-- Claim C3 (amended): the rewriter substitutes, for every leftmost,
maximal run that begins with `_page`, continues with one or more characters
none of which is `)`, and ends with `.jpeg`, the JavaScript expansion of the
replacement template `http://localhost:3000/<document-key>/$1`; whenever the
document key holds no `$` character this is exactly
`http://localhost:3000/<document-key>/<matched-text>`, all other text being
left unchanged (keys containing `$`-sequences have them expanded as
replacement patterns instead).  In particular `![alt](_page_3.jpeg)` with
key `report` becomes `![alt](http://localhost:3000/report/_page_3.jpeg)`,
and `cover.png` is left untouched. -/
theorem C3_amended :
    (∀ key cs : Name, dollarChar ∉ key →
        Rewrites key cs (replaceListFull key cs))
      ∧ replaceImagePathsContent "report" "![alt](_page_3.jpeg)"
          = "![alt](http://localhost:3000/report/_page_3.jpeg)"
      ∧ replaceImagePathsContent "report" "![alt](cover.png)"
          = "![alt](cover.png)" := by
  refine ⟨?_, by decide, by decide⟩
  intro key cs hk
  exact replaceGoFull_rewrites key hk cs.length [] cs (Nat.le_refl _)

/-- Claim C3 (amended), witness: the `$`-free key `report` on the claim's
own example input. -/
theorem C3_amended_witness :
    dollarChar ∉ "report".toList
      ∧ Rewrites "report".toList "![alt](_page_3.jpeg)".toList
          (replaceListFull "report".toList "![alt](_page_3.jpeg)".toList) :=
  ⟨by decide,
   C3_amended.1 "report".toList "![alt](_page_3.jpeg)".toList (by decide)⟩

end MarkerMultiple
